import Mathlib

/-!
Verification of the voice-chess engine core (ChessBotEngine.ts) and the
post-game analyzer (GameAnalyzer.ts).

The chess rules engine (chess.js) is an external collaborator: it is modelled
as an abstract `Rules` structure supplying move generation, move application,
terminal-state predicates, the side to move, the FEN serialization and the
board accessor.  The engine's own code (piece values, piece-square tables,
`getPieceValue`, `evaluatePosition`, `minimax` with alpha-beta pruning,
`getBestMove`) is embedded directly from the source.

Scores in the engine are JS numbers together with the sentinels
`-Infinity` / `Infinity`; they are embedded as `WithBot (WithTop Int)`
(written `⊥` / `⊤`).  The evaluator's random jitter term
`(Math.random() - 0.5) * 0.1` is held at zero (the deterministic
configuration); the static evaluator seen by the search is therefore an
arbitrary integer-valued function, and search theorems are quantified over
every such evaluator.
-/

/-- Scores: JS numbers plus the `-Infinity` / `Infinity` sentinels used by
the search. -/
abbrev Score : Type := WithBot (WithTop Int)

/-- A finite score. -/
def finS (n : Int) : Score := ((n : WithTop Int) : Score)

/-- Piece colors ('w' / 'b' in chess.js). -/
inductive Color where
  | white
  | black
deriving DecidableEq, Repr

/-- Piece kinds ('p','n','b','r','q','k' in chess.js). -/
inductive PieceKind where
  | pawn
  | knight
  | bishop
  | rook
  | queen
  | king
deriving DecidableEq, Repr

/-- A piece as returned by chess.js `board()`: a color and a kind. -/
structure Piece where
  color : Color
  kind : PieceKind
deriving DecidableEq, Repr

/-- A verbose move from chess.js `moves({verbose: true})`, restricted to the
fields the engine reads: `from`, `to` and the optional `promotion`. -/
structure VMove where
  fromSq : String
  toSq : String
  promotion : Option String
deriving DecidableEq, Repr

/-- The `BotMove` interface of ChessBotEngine.ts. -/
structure BotMove where
  fromSq : String
  toSq : String
  promotion : Option String
deriving DecidableEq, Repr

/-- Construction `{ from: move.from, to: move.to, promotion: move.promotion }`
performed by `getBestMove`. -/
def toBot (m : VMove) : BotMove :=
  { fromSq := m.fromSq, toSq := m.toSq, promotion := m.promotion }

/-- The external rules provider (chess.js), as the abstract capability the
engine consumes: legal-move generation, move application, terminal
predicates, side to move, FEN serialization and the 8×8 board accessor
(`board()[i][j]`, row 0 = rank 8). -/
structure Rules (Pos : Type) where
  moves : Pos → List VMove
  applyMove : Pos → VMove → Pos
  isCheckmate : Pos → Bool
  isGameOver : Pos → Bool
  isDraw : Pos → Bool
  isStalemate : Pos → Bool
  turn : Pos → Color
  fen : Pos → String
  board : Pos → Nat → Nat → Option Piece

/-- Sanity property of a real chess rules engine: a position with no legal
moves is game over (checkmate or stalemate).  chess.js guarantees this. -/
def Proper {Pos : Type} (R : Rules Pos) : Prop :=
  ∀ g, R.moves g = [] → R.isGameOver g = true

/-- `PIECE_VALUES` of ChessBotEngine.ts. -/
def PIECE_VALUES : PieceKind → Int
  | .pawn => 1
  | .knight => 3
  | .bishop => 3
  | .rook => 5
  | .queen => 9
  | .king => 0

/-- `PAWN_TABLE` of ChessBotEngine.ts. -/
def PAWN_TABLE : List (List Int) :=
  [[0, 0, 0, 0, 0, 0, 0, 0],
   [2, -2, -3, 0, 0, -3, -2, 2],
   [0, 0, 0, -3, -3, 0, 0, 0],
   [2, 2, 3, 6, 6, 3, 2, 2],
   [3, 3, 6, 12, 12, 6, 3, 3],
   [9, 9, 12, 18, 18, 12, 9, 9],
   [27, 27, 27, 27, 27, 27, 27, 27],
   [0, 0, 0, 0, 0, 0, 0, 0]]

/-- `KNIGHT_TABLE` of ChessBotEngine.ts. -/
def KNIGHT_TABLE : List (List Int) :=
  [[-30, -25, -20, -20, -20, -20, -25, -30],
   [-25, -12, 0, 0, 0, 0, -12, -25],
   [-20, 3, 6, 9, 9, 6, 3, -20],
   [-20, 3, 9, 12, 12, 9, 3, -20],
   [-20, 3, 9, 12, 12, 9, 3, -20],
   [-20, 3, 6, 9, 9, 6, 3, -20],
   [-25, -12, 0, 3, 3, 0, -12, -25],
   [-30, -25, -20, -20, -20, -20, -25, -30]]

/-- `BISHOP_TABLE` of ChessBotEngine.ts. -/
def BISHOP_TABLE : List (List Int) :=
  [[-12, -6, -6, -6, -6, -6, -6, -12],
   [-6, 3, 0, 0, 0, 0, 3, -6],
   [-6, 6, 6, 6, 6, 6, 6, -6],
   [-6, 0, 6, 9, 9, 6, 0, -6],
   [-6, 3, 6, 9, 9, 6, 3, -6],
   [-6, 0, 6, 6, 6, 6, 0, -6],
   [-6, 0, 0, 0, 0, 0, 0, -6],
   [-12, -6, -6, -6, -6, -6, -6, -12]]

/-- `ROOK_TABLE` of ChessBotEngine.ts. -/
def ROOK_TABLE : List (List Int) :=
  [[0, 0, 0, 4, 4, 0, 0, 0],
   [-4, 0, 0, 0, 0, 0, 0, -4],
   [-4, 0, 0, 0, 0, 0, 0, -4],
   [-4, 0, 0, 0, 0, 0, 0, -4],
   [-4, 0, 0, 0, 0, 0, 0, -4],
   [-4, 0, 0, 0, 0, 0, 0, -4],
   [4, 15, 15, 15, 15, 15, 15, 4],
   [0, 0, 0, 0, 0, 0, 0, 0]]

/-- `QUEEN_TABLE` of ChessBotEngine.ts.  Note: this table is defined in the
source but never read, because the `switch` in `getPieceValue` has no case
for `'q'`. -/
def QUEEN_TABLE : List (List Int) :=
  [[-10, -5, -5, -2, -2, -5, -5, -10],
   [-5, 0, 2, 0, 0, 0, 0, -5],
   [-5, 2, 2, 2, 2, 2, 0, -5],
   [-2, 0, 2, 5, 5, 2, 0, -2],
   [-2, 0, 2, 5, 5, 2, 0, -2],
   [-5, 0, 2, 2, 2, 2, 0, -5],
   [-5, 0, 0, 0, 0, 0, 0, -5],
   [-10, -5, -5, -2, -2, -5, -5, -10]]

/-- `KING_TABLE` of ChessBotEngine.ts. -/
def KING_TABLE : List (List Int) :=
  [[-40, -32, -24, -16, -16, -24, -32, -40],
   [-24, -16, -8, 0, 0, -8, -16, -24],
   [-24, -8, 16, 24, 24, 16, -8, -24],
   [-24, -8, 24, 32, 32, 24, -8, -24],
   [-24, -8, 24, 32, 32, 24, -8, -24],
   [-24, -8, 16, 24, 24, 16, -8, -24],
   [-24, -24, 0, 0, 0, 0, -24, -24],
   [-40, -24, -24, -24, -24, -24, -24, -40]]

/-- Indexed table lookup `TABLE[r][c]`.  All in-engine accesses are in range
(rows and columns stay within 0..7), so the default value is never used. -/
def tableAt (t : List (List Int)) (r c : Nat) : Int :=
  (t.getD r []).getD c 0

/-- `getPieceValue` of ChessBotEngine.ts: base material value × 100 plus
positional table bonus.  The row is flipped for White because the tables are
stored with row 0 = rank 8 (chess.js board orientation).  The source
`switch` handles `'p'`, `'n'`, `'b'`, `'r'`, `'k'`; a queen falls through to
the `default` branch and gets positional value 0 (QUEEN_TABLE is unused). -/
def getPieceValue (p : Piece) (row col : Nat) : Int :=
  let baseValue := PIECE_VALUES p.kind * 100
  let tableRow := if p.color = Color.black then row else 7 - row
  let positionalValue : Int :=
    match p.kind with
    | .pawn => tableAt PAWN_TABLE tableRow col
    | .knight => tableAt KNIGHT_TABLE tableRow col
    | .bishop => tableAt BISHOP_TABLE tableRow col
    | .rook => tableAt ROOK_TABLE tableRow col
    | .king => tableAt KING_TABLE tableRow col
    | .queen => 0
  baseValue + positionalValue

/-- The material-and-position double loop of `evaluatePosition`:
`score += piece.color === 'b' ? value : -value` over all 64 squares. -/
def boardScore {Pos : Type} (R : Rules Pos) (g : Pos) : Int :=
  (List.range 8).foldl
    (fun s i =>
      (List.range 8).foldl
        (fun s2 j =>
          match R.board g i j with
          | none => s2
          | some p =>
              s2 + (if p.color = Color.black then getPieceValue p i j
                    else -(getPieceValue p i j)))
        s)
    0

/-- `fen.split(' ')[0]`: the piece-placement field of a FEN string, i.e. the
characters before the first space. -/
def fenKey (s : String) : String :=
  String.mk (s.data.takeWhile (fun c => !(c = ' ')))

/-- The repetition count of `evaluatePosition`: how many entries of the
position history share the given piece-placement key. -/
def countReps (hist : List String) (key : String) : Nat :=
  (hist.filter (fun p => fenKey p = key)).length

/-- `evaluatePosition` of ChessBotEngine.ts, with the position history passed
explicitly (in the source it is the field `this.positionHistory`) and the
random jitter term held at zero (deterministic configuration). -/
def evaluatePosition {Pos : Type} (R : Rules Pos) (g : Pos) (hist : List String) : Int :=
  if R.isCheckmate g then
    (if R.turn g = Color.white then -100000 else 100000)
  else if R.isDraw g || R.isStalemate g then 0
  else if 2 ≤ countReps hist (fenKey (R.fen g)) then
    (if R.turn g = Color.white then -5000 else 5000)
  else boardScore R g

/-- The checkmate score of `minimax`:
`isMaximizing ? -(100000 - plyFromRoot) : (100000 - plyFromRoot)`. -/
def mateScore (maxi : Bool) (ply : Nat) : Score :=
  if maxi then finS (-(100000 - (ply : Int))) else finS (100000 - (ply : Int))

/-- Exhaustive unpruned minimax over the same tree as `minimax`, with the
same terminal handling and the same move order, but no alpha-beta window.
Modelled from the spec: this is the reference search the pruned one must be
equivalent to ("the search must remain equivalent in chosen move to an
unpruned full search, only faster"). -/
def mmVal {Pos : Type} (R : Rules Pos) (e : Pos → Int) :
    Nat → Pos → Bool → Nat → Score
  | 0, g, maxi, ply =>
      if R.isCheckmate g then mateScore maxi ply else finS (e g)
  | d + 1, g, maxi, ply =>
      if R.isCheckmate g then mateScore maxi ply
      else if R.isGameOver g then finS (e g)
      else if maxi then
        (R.moves g).foldl
          (fun acc m => max acc (mmVal R e d (R.applyMove g m) false (ply + 1))) ⊥
      else
        (R.moves g).foldl
          (fun acc m => min acc (mmVal R e d (R.applyMove g m) true (ply + 1))) ⊤

/-- The maximizing loop of `minimax`: running `maxEval`, alpha tightened
after every child, cut off as soon as `beta <= alpha`.  `child m a` is the
recursive call on the position after `m` with window `(a, β)`. -/
def abMaxLoop (child : VMove → Score → Score) (β : Score) :
    List VMove → Score → Score → Score
  | [], _, acc => acc
  | m :: rest, α, acc =>
      let v := child m α
      let acc2 := max acc v
      let α2 := max α v
      if β ≤ α2 then acc2 else abMaxLoop child β rest α2 acc2

/-- The minimizing loop of `minimax`: running `minEval`, beta tightened
after every child, cut off as soon as `beta <= alpha`. -/
def abMinLoop (child : VMove → Score → Score) (α : Score) :
    List VMove → Score → Score → Score
  | [], _, acc => acc
  | m :: rest, β, acc =>
      let v := child m β
      let acc2 := min acc v
      let β2 := min β v
      if β2 ≤ α then acc2 else abMinLoop child α rest β2 acc2

/-- `minimax` of ChessBotEngine.ts: depth-bounded adversarial search with
alpha-beta pruning.  Checkmate is handled first with the ply-adjusted mate
score; then `depth === 0 || isGameOver` returns the static evaluation;
otherwise the maximizing / minimizing loop runs over the legal moves. -/
def abVal {Pos : Type} (R : Rules Pos) (e : Pos → Int) :
    Nat → Pos → Score → Score → Bool → Nat → Score
  | 0, g, _, _, maxi, ply =>
      if R.isCheckmate g then mateScore maxi ply else finS (e g)
  | d + 1, g, α, β, maxi, ply =>
      if R.isCheckmate g then mateScore maxi ply
      else if R.isGameOver g then finS (e g)
      else if maxi then
        abMaxLoop (fun m a => abVal R e d (R.applyMove g m) a β false (ply + 1))
          β (R.moves g) α ⊥
      else
        abMinLoop (fun m b => abVal R e d (R.applyMove g m) α b true (ply + 1))
          α (R.moves g) β ⊤

/-- The root loop of `getBestMove`: `bestValue` starts at `-Infinity`,
`beta` is the constant `Infinity`, a move replaces the incumbent only on
strict improvement (`value > bestValue`), and alpha is tightened after every
child.  There is no cutoff at the root. -/
def rootLoopF (child : VMove → Score → Score) :
    List VMove → Score → Score → Option BotMove → Option BotMove
  | [], _, _, best => best
  | m :: rest, bestVal, α, best =>
      let v := child m α
      let bestVal2 := if bestVal < v then v else bestVal
      let best2 := if bestVal < v then some (toBot m) else best
      rootLoopF child rest bestVal2 (max α v) best2

/-- `getBestMove` of ChessBotEngine.ts: empty move list returns null; then
the immediate-mate short-circuit returns the first move whose application is
checkmate; otherwise the root loop searches every move with `minimax` at
`depth - 1`.  The evaluator `e` is the (jitter-disabled) static evaluation
of the leaf positions. -/
def getBestMove {Pos : Type} (R : Rules Pos) (e : Pos → Int) (g : Pos)
    (depth : Nat) : Option BotMove :=
  if R.moves g = [] then none
  else
    match (R.moves g).find? (fun m => R.isCheckmate (R.applyMove g m)) with
    | some m => some (toBot m)
    | none =>
        rootLoopF (fun m a => abVal R e (depth - 1) (R.applyMove g m) a ⊤ false 1)
          (R.moves g) ⊥ ⊥ none

/-- Modelled from the spec: `getBestMove` with the pruned recursive search
replaced by the exhaustive unpruned `mmVal` of the same depth, identical
move order, identical strict-improvement tie-breaking.  Used as the
reference point of the alpha-beta equivalence claim. -/
def getBestMoveMM {Pos : Type} (R : Rules Pos) (e : Pos → Int) (g : Pos)
    (depth : Nat) : Option BotMove :=
  if R.moves g = [] then none
  else
    match (R.moves g).find? (fun m => R.isCheckmate (R.applyMove g m)) with
    | some m => some (toBot m)
    | none =>
        rootLoopF (fun m _ => mmVal R e (depth - 1) (R.applyMove g m) false 1)
          (R.moves g) ⊥ ⊥ none

/-- The `Classification` enum (types/Classification.ts), values as listed in
MoveHistory.tsx. -/
inductive Classification where
  | brilliant
  | great
  | best
  | excellent
  | good
  | book
  | forced
  | inaccuracy
  | mistake
  | blunder
deriving DecidableEq, Repr

/-- The `{san, uci}` move record of an EvaluatedPosition
(types/Position.ts). -/
structure MoveRec where
  san : String
  uci : String
deriving DecidableEq, Repr

/-- `EvaluatedPosition` of types/Position.ts.  Evaluations are JS numbers;
they are embedded as rationals (the analyzer only subtracts and compares
them against integer thresholds). -/
structure EvaluatedPosition where
  fen : String
  move : MoveRec
  evaluation : Rat
  classification : Option Classification := none
deriving DecidableEq, Repr

/-- `classifyMove` of GameAnalyzer.ts: ascending fixed thresholds on the
mover's evaluation loss. -/
def classifyMove (evalLoss : Rat) : Classification :=
  if evalLoss ≤ 0 then Classification.best
  else if evalLoss ≤ 25 then Classification.best
  else if evalLoss ≤ 50 then Classification.excellent
  else if evalLoss ≤ 100 then Classification.good
  else if evalLoss ≤ 200 then Classification.inaccuracy
  else if evalLoss ≤ 400 then Classification.mistake
  else Classification.blunder

/-- One iteration of the `analyzeGame` loop, acting on element `i`.  The
first position (index 0) is skipped; otherwise `evalChange =
eval[i] - eval[i-1]`, the mover is read off the index parity
(odd ⇒ White), the change is negated for White to obtain the mover's loss,
and the classification field is set.  Only the classification is written;
evaluations are never mutated, so reading predecessors from the input
sequence is faithful to the in-place loop. -/
def analyzeStep (ps : List EvaluatedPosition) (i : Nat)
    (p : EvaluatedPosition) : EvaluatedPosition :=
  if i = 0 then p
  else
    match ps.get? (i - 1) with
    | none => p
    | some prev =>
        let evalChange := p.evaluation - prev.evaluation
        let isWhiteMove := i % 2 = 1
        let evalLoss := if isWhiteMove then -evalChange else evalChange
        { p with classification := some (classifyMove evalLoss) }

/-- Map with the element index, starting at `n`. -/
def mapWithIndex {α β : Type} (f : Nat → α → β) : Nat → List α → List β
  | _, [] => []
  | n, a :: as => f n a :: mapWithIndex f (n + 1) as

/-- `analyzeGame` of GameAnalyzer.ts, functionally: every element is
replaced by its classified version (element 0 is returned unchanged). -/
def analyzeGame (ps : List EvaluatedPosition) : List EvaluatedPosition :=
  mapWithIndex (fun i p => analyzeStep ps i p) 0 ps

/-- Two-position demo game for the analyzer: the first side gains 120 on
its first move. -/
def demoPs : List EvaluatedPosition :=
  [{ fen := "start", move := { san := "", uci := "" }, evaluation := 0 },
   { fen := "p1", move := { san := "e4", uci := "e2e4" }, evaluation := 120 }]

/-- The spec's end-to-end analyzer scenario: evaluation sequence
[0, +30, +30]. -/
def demo3 : List EvaluatedPosition :=
  [{ fen := "s0", move := { san := "", uci := "" }, evaluation := 0 },
   { fen := "s1", move := { san := "Na", uci := "a1a2" }, evaluation := 30 },
   { fen := "s2", move := { san := "Nb", uci := "b1b2" }, evaluation := 30 }]

/-- Jitter-free integer evaluator used by the demo instances. -/
def demoE : Nat → Int := fun n => (n : Int)

/-- A tiny proper rules provider on positions 0, 1, 2, ...: two legal moves
while the position index is below 2, game over afterwards, never checkmate. -/
def demoR : Rules Nat where
  moves := fun n =>
    if n < 2 then [⟨"a2", "a3", none⟩, ⟨"b2", "b3", none⟩] else []
  applyMove := fun n _ => n + 1
  isCheckmate := fun _ => false
  isGameOver := fun n => decide (2 ≤ n)
  isDraw := fun _ => false
  isStalemate := fun _ => false
  turn := fun _ => Color.white
  fen := fun _ => "k7/8/8/8/8/8/8/K7 w - - 0 1"
  board := fun _ _ _ => none

/-- A search path on which the piece-placement key of demoR's position
occurs twice. -/
def demoHist : List String :=
  ["k7/8/8/8/8/8/8/K7 b - - 3 7", "k7/8/8/8/8/8/8/K7 w - - 0 1"]

/-- A demo rules provider with an immediate mate: from position 0 both
moves lead to position 1, which is checkmate. -/
def demoM : Rules Nat where
  moves := fun n =>
    if n = 0 then [⟨"d8", "h4", none⟩, ⟨"a2", "a3", none⟩] else []
  applyMove := fun n _ => n + 1
  isCheckmate := fun n => decide (n = 1)
  isGameOver := fun n => decide (1 ≤ n)
  isDraw := fun _ => false
  isStalemate := fun _ => false
  turn := fun _ => Color.black
  fen := fun _ => "rnb1kbnr/pppp1ppp/8/4p3/6Pq/5P2/PPPPP2P/RNBQKBNR b - - 1 2"
  board := fun _ _ _ => none

/-- A second evaluator that differs from `demoE` exactly on checkmate
positions. -/
def demoE2 : Nat → Int := fun n => if demoM.isCheckmate n then 42 else (n : Int)

theorem bot_lt_finS (n : Int) : (⊥ : Score) < finS n :=
  WithBot.bot_lt_coe _

theorem finS_lt_top (n : Int) : finS n < (⊤ : Score) := by
  have h : ((n : WithTop Int) : Score) < ((⊤ : WithTop Int) : Score) :=
    WithBot.coe_lt_coe.mpr (WithTop.coe_lt_top n)
  exact h

theorem bot_lt_top_score : (⊥ : Score) < (⊤ : Score) :=
  lt_trans (bot_lt_finS 0) (finS_lt_top 0)

theorem mapWithIndex_get? {α β : Type} (f : Nat → α → β) :
    ∀ (l : List α) (n j : Nat),
      (mapWithIndex f n l).get? j = (l.get? j).map (f (n + j))
  | [], n, j => by simp [mapWithIndex]
  | a :: as, n, 0 => by simp [mapWithIndex]
  | a :: as, n, j + 1 => by
      have h := mapWithIndex_get? f as (n + 1) j
      simp only [mapWithIndex, List.get?]
      rw [h]
      have h2 : n + 1 + j = n + (j + 1) := by omega
      rw [h2]

theorem analyzeGame_get? (ps : List EvaluatedPosition) (j : Nat) :
    (analyzeGame ps).get? j = (ps.get? j).map (analyzeStep ps j) := by
  have h := mapWithIndex_get? (fun i p => analyzeStep ps i p) ps 0 j
  simpa using h

theorem analyzeStep_evaluation (ps : List EvaluatedPosition) (i : Nat)
    (p : EvaluatedPosition) :
    (analyzeStep ps i p).evaluation = p.evaluation := by
  unfold analyzeStep
  split
  · rfl
  · cases h : ps.get? (i - 1) <;> simp

theorem list_ext_get2 {α : Type} :
    ∀ (l1 l2 : List α), (∀ n, l1.get? n = l2.get? n) → l1 = l2
  | [], [], _ => rfl
  | [], b :: bs, h => by have h0 := h 0; simp at h0
  | a :: as, [], h => by have h0 := h 0; simp at h0
  | a :: as, b :: bs, h => by
      have h0 := h 0
      simp at h0
      have ht := list_ext_get2 as bs (fun n => by have hn := h (n + 1); simpa using hn)
      simp [h0, ht]

theorem analyzeStep_idem (ps : List EvaluatedPosition) (i : Nat)
    (p : EvaluatedPosition) :
    analyzeStep (analyzeGame ps) i (analyzeStep ps i p) = analyzeStep ps i p := by
  by_cases hi : i = 0
  · simp [analyzeStep, hi]
  · have hag := analyzeGame_get? ps (i - 1)
    cases h : ps.get? (i - 1) with
    | none =>
        rw [h] at hag
        simp only [Option.map_none'] at hag
        unfold analyzeStep
        rw [if_neg hi, if_neg hi, h, hag]
    | some prev =>
        rw [h] at hag
        simp only [Option.map_some'] at hag
        unfold analyzeStep
        rw [if_neg hi, if_neg hi, h, hag]
        dsimp only
        rw [analyzeStep_evaluation]

/-- C7: For every evaluated-position sequence and every index `i ≥ 1`,
`analyzeGame` computes `evalChange = eval[i] − eval[i−1]`, negates it when
`i` is odd (first side moved) and keeps it when `i` is even, and classifies
element `i` by the ascending thresholds Best ≤ 25 (including every loss
≤ 0), Excellent ≤ 50, Good ≤ 100, Inaccuracy ≤ 200, Mistake ≤ 400 and
Blunder above; no other classification value is ever emitted. -/
theorem analyzeGame_classifies :
    (∀ (ps : List EvaluatedPosition) (i : Nat) (p prev : EvaluatedPosition),
       1 ≤ i → ps.get? i = some p → ps.get? (i - 1) = some prev →
       (analyzeGame ps).get? i =
         some { p with classification := (some (classifyMove
             (if i % 2 = 1 then -(p.evaluation - prev.evaluation)
              else p.evaluation - prev.evaluation))) })
    ∧ (∀ l : Rat,
        (l ≤ 25 → classifyMove l = Classification.best)
        ∧ (25 < l ∧ l ≤ 50 → classifyMove l = Classification.excellent)
        ∧ (50 < l ∧ l ≤ 100 → classifyMove l = Classification.good)
        ∧ (100 < l ∧ l ≤ 200 → classifyMove l = Classification.inaccuracy)
        ∧ (200 < l ∧ l ≤ 400 → classifyMove l = Classification.mistake)
        ∧ (400 < l → classifyMove l = Classification.blunder))
    ∧ (∀ l : Rat,
        classifyMove l = Classification.best
        ∨ classifyMove l = Classification.excellent
        ∨ classifyMove l = Classification.good
        ∨ classifyMove l = Classification.inaccuracy
        ∨ classifyMove l = Classification.mistake
        ∨ classifyMove l = Classification.blunder) := by
  refine ⟨?_, ?_, ?_⟩
  · intro ps i p prev h1 hp hprev
    rw [analyzeGame_get?, hp]
    simp only [Option.map_some']
    have hi : ¬ i = 0 := by omega
    unfold analyzeStep
    rw [if_neg hi, hprev]
  · intro l
    refine ⟨?_, ?_, ?_, ?_, ?_, ?_⟩
    · intro h
      unfold classifyMove
      split_ifs <;> first | rfl | linarith
    · rintro ⟨ha, hb⟩
      unfold classifyMove
      split_ifs <;> first | rfl | linarith
    · rintro ⟨ha, hb⟩
      unfold classifyMove
      split_ifs <;> first | rfl | linarith
    · rintro ⟨ha, hb⟩
      unfold classifyMove
      split_ifs <;> first | rfl | linarith
    · rintro ⟨ha, hb⟩
      unfold classifyMove
      split_ifs <;> first | rfl | linarith
    · intro h
      unfold classifyMove
      split_ifs <;> first | rfl | linarith
  · intro l
    unfold classifyMove
    split_ifs <;> tauto

/-- C7 witness: at index 1 of the demo game the mover is the first side,
the loss is −120 and the classification is Best. -/
theorem analyzeGame_classifies_witness :
    (analyzeGame demoPs).get? 1 =
      some { fen := "p1", move := { san := "e4", uci := "e2e4" },
             evaluation := 120,
             classification := some Classification.best } := by
  have h := analyzeGame_classifies.1 demoPs 1
    { fen := "p1", move := { san := "e4", uci := "e2e4" }, evaluation := 120 }
    { fen := "start", move := { san := "", uci := "" }, evaluation := 0 }
    (by decide) rfl rfl
  rw [h]
  norm_num [classifyMove]

/-- C9: the analyzer is idempotent (a second run over the already-classified
sequence, evaluations unchanged, returns the same sequence), and element 0
is returned unchanged, so the initial position never receives a
classification. -/
theorem analyzeGame_idempotent_and_initial_unclassified :
    (∀ ps : List EvaluatedPosition,
       analyzeGame (analyzeGame ps) = analyzeGame ps)
    ∧ (∀ ps : List EvaluatedPosition,
       (analyzeGame ps).get? 0 = ps.get? 0) := by
  constructor
  · intro ps
    apply list_ext_get2
    intro n
    rw [analyzeGame_get? (analyzeGame ps) n, analyzeGame_get? ps n]
    cases h : ps.get? n with
    | none => simp
    | some p =>
        simp only [Option.map_some']
        rw [analyzeStep_idem]
  · intro ps
    rw [analyzeGame_get?]
    cases h : ps.get? 0 with
    | none => simp
    | some p => simp [analyzeStep]

/-- C8 counterexample: on the sequence [0, +30, +30] the move at index 2 has
`evalChange = 30 − 30 = 0`, so its loss for the second side is 0 and it is
classified Best — not Excellent as the claim states (Best ≠ Excellent). -/
theorem analyzeGame_0_30_30_counterexample :
    (analyzeGame demo3).map (fun p => p.classification) =
      [none, some Classification.best, some Classification.best]
    ∧ (Classification.best == Classification.excellent) = false := by
  constructor
  · norm_num [analyzeGame, mapWithIndex, analyzeStep, demo3, classifyMove]
  · decide

/-- C8 amended: on [0, +30, +30] index 1 is classified Best (loss −30 for
the first side) and index 2 is also classified Best (evalChange 0, loss 0
for the second side). -/
theorem analyzeGame_0_30_30_amended :
    ((analyzeGame demo3).get? 1).map (fun p => p.classification) =
      some (some Classification.best)
    ∧ ((analyzeGame demo3).get? 2).map (fun p => p.classification) =
      some (some Classification.best) := by
  constructor
  · norm_num [analyzeGame, mapWithIndex, analyzeStep, demo3, classifyMove]
  · norm_num [analyzeGame, mapWithIndex, analyzeStep, demo3, classifyMove]

/-- C5: divergence on the queen.  `getPieceValue` gives a white queen on
board square (0,0) exactly its base value 900 — the `switch` has no `'q'`
case, so the positional bonus defaults to 0 — while the claimed formula
(base material × 100 plus the piece kind's positional-table bonus at the
mirrored rank) yields 900 + QUEEN_TABLE[7][0] = 900 + (−10) = 890. -/
theorem getPieceValue_queen_no_table_bonus :
    getPieceValue { color := Color.white, kind := PieceKind.queen } 0 0 = 900
    ∧ PIECE_VALUES PieceKind.queen * 100 + tableAt QUEEN_TABLE 7 0 = 890 := by
  constructor
  · decide
  · decide

/-- C6: whenever the piece-placement key of the evaluated position occurs
twice or more in the position history, `evaluatePosition` returns the heavy
repetition penalty ±5000 signed by the side to move, overriding the
material score it would otherwise compute. -/
theorem evaluatePosition_repetition_penalty {Pos : Type} (R : Rules Pos)
    (g : Pos) (hist : List String)
    (hc : R.isCheckmate g = false) (hd : R.isDraw g = false)
    (hs : R.isStalemate g = false)
    (hr : 2 ≤ countReps hist (fenKey (R.fen g))) :
    evaluatePosition R g hist =
      (if R.turn g = Color.white then -5000 else 5000) := by
  unfold evaluatePosition
  rw [hc, hd, hs]
  simp [hr]

theorem demoR_proper : Proper demoR := by
  intro g h
  simp only [demoR] at h ⊢
  split at h
  · simp at h
  · simp
    omega

/-- C6 witness: on the demo position with its key twice in the history, the
evaluator returns −5000 (White to move). -/
theorem evaluatePosition_repetition_witness :
    evaluatePosition demoR 0 demoHist = -5000 := by
  have h := evaluatePosition_repetition_penalty demoR 0 demoHist rfl rfl rfl
    (by decide)
  rw [h]
  decide

theorem le_foldl_max (f : VMove → Score) :
    ∀ (ms : List VMove) (a : Score), a ≤ ms.foldl (fun x m => max x (f m)) a
  | [], a => le_refl a
  | m :: rest, a =>
      le_trans (le_max_left a (f m)) (le_foldl_max f rest (max a (f m)))

theorem foldl_min_le (f : VMove → Score) :
    ∀ (ms : List VMove) (a : Score), ms.foldl (fun x m => min x (f m)) a ≤ a
  | [], a => le_refl a
  | m :: rest, a =>
      le_trans (foldl_min_le f rest (min a (f m))) (min_le_left a (f m))

/-- Fail-soft bounds for the maximizing alpha-beta loop relative to the
unpruned maximum, for any child search satisfying the inductive fail-soft
conditions.  The two conclusions: if the loop result is below beta it upper
bounds the true maximum, and the loop result never exceeds
`max α (true maximum)`. -/
theorem abMaxLoop_bounds (child : VMove → Score → Score)
    (mchild : VMove → Score) (β : Score)
    (Hc : ∀ m a, a < β →
      ((child m a < β → mchild m ≤ child m a)
        ∧ (a < child m a → child m a ≤ mchild m))) :
    ∀ (ms : List VMove) (α acc accm : Score), α < β → acc ≤ α → accm ≤ acc →
      ((abMaxLoop child β ms α acc < β →
          ms.foldl (fun x m => max x (mchild m)) accm ≤ abMaxLoop child β ms α acc)
        ∧ abMaxLoop child β ms α acc ≤
            max α (ms.foldl (fun x m => max x (mchild m)) accm)) := by
  intro ms
  induction ms with
  | nil =>
      intro α acc accm hab hacc haccm
      refine ⟨fun _ => ?_, ?_⟩
      · simpa [abMaxLoop] using haccm
      · simpa [abMaxLoop] using le_trans hacc (le_max_left α accm)
  | cons m rest ih =>
      intro α acc accm hab hacc haccm
      have hv := Hc m α hab
      by_cases hbr : β ≤ max α (child m α)
      · have hbv : β ≤ child m α := by
          rcases max_choice α (child m α) with h | h
          · rw [h] at hbr
            exact absurd hbr (not_le.mpr hab)
          · rwa [h] at hbr
        have hav : α < child m α := lt_of_lt_of_le hab hbv
        have hvm : child m α ≤ mchild m := hv.2 hav
        have haccv : acc ≤ child m α := le_trans hacc (le_of_lt hav)
        have hA : abMaxLoop child β (m :: rest) α acc = child m α := by
          simp [abMaxLoop, hbr, max_eq_right haccv]
        refine ⟨fun hlt => ?_, ?_⟩
        · rw [hA] at hlt
          exact absurd hlt (not_lt.mpr hbv)
        · rw [hA]
          have h2 : max accm (mchild m) ≤
              (m :: rest).foldl (fun x m => max x (mchild m)) accm := by
            simp only [List.foldl]
            exact le_foldl_max mchild rest _
          exact le_trans (le_trans hvm (le_trans (le_max_right accm _) h2))
            (le_max_right α _)
      · have hab2 : max α (child m α) < β := not_le.mp hbr
        have hvb : child m α < β := lt_of_le_of_lt (le_max_right _ _) hab2
        have hmv : mchild m ≤ child m α := hv.1 hvb
        have hloop : abMaxLoop child β (m :: rest) α acc =
            abMaxLoop child β rest (max α (child m α)) (max acc (child m α)) := by
          simp [abMaxLoop, hbr]
        have hrec := ih (max α (child m α)) (max acc (child m α))
          (max accm (mchild m)) hab2 (max_le_max hacc (le_refl _))
          (max_le_max haccm hmv)
        have hfold : (m :: rest).foldl (fun x m => max x (mchild m)) accm =
            rest.foldl (fun x m => max x (mchild m)) (max accm (mchild m)) := rfl
        rw [hloop, hfold]
        refine ⟨hrec.1, le_trans hrec.2 ?_⟩
        by_cases hva : child m α ≤ α
        · rw [max_eq_left hva]
        · have hav : α < child m α := not_le.mp hva
          have h1 : child m α ≤
              rest.foldl (fun x m => max x (mchild m)) (max accm (mchild m)) :=
            le_trans (hv.2 hav)
              (le_trans (le_max_right accm _) (le_foldl_max mchild rest _))
          rw [max_assoc, max_eq_right h1]

/-- Fail-soft bounds for the minimizing alpha-beta loop, dual to
`abMaxLoop_bounds`. -/
theorem abMinLoop_bounds (child : VMove → Score → Score)
    (mchild : VMove → Score) (α : Score)
    (Hc : ∀ m b, α < b →
      ((child m b < b → mchild m ≤ child m b)
        ∧ (α < child m b → child m b ≤ mchild m))) :
    ∀ (ms : List VMove) (β acc accm : Score), α < β → β ≤ acc → acc ≤ accm →
      ((α < abMinLoop child α ms β acc →
          abMinLoop child α ms β acc ≤ ms.foldl (fun x m => min x (mchild m)) accm)
        ∧ min β (ms.foldl (fun x m => min x (mchild m)) accm) ≤
            abMinLoop child α ms β acc) := by
  intro ms
  induction ms with
  | nil =>
      intro β acc accm hab hacc haccm
      refine ⟨fun _ => ?_, ?_⟩
      · simpa [abMinLoop] using haccm
      · simpa [abMinLoop] using le_trans (min_le_left β accm) hacc
  | cons m rest ih =>
      intro β acc accm hab hacc haccm
      have hv := Hc m β hab
      by_cases hbr : min β (child m β) ≤ α
      · have hva : child m β ≤ α := by
          rcases min_choice β (child m β) with h | h
          · rw [h] at hbr
            exact absurd hbr (not_le.mpr hab)
          · rwa [h] at hbr
        have hvb : child m β < β := lt_of_le_of_lt hva hab
        have hmv : mchild m ≤ child m β := hv.1 hvb
        have hvacc : child m β ≤ acc := le_trans (le_of_lt hvb) hacc
        have hA : abMinLoop child α (m :: rest) β acc = child m β := by
          simp [abMinLoop, hbr, min_eq_right hvacc]
        refine ⟨fun hlt => ?_, ?_⟩
        · rw [hA] at hlt
          exact absurd hlt (not_lt.mpr hva)
        · rw [hA]
          have h2 : (m :: rest).foldl (fun x m => min x (mchild m)) accm ≤
              min accm (mchild m) := by
            simp only [List.foldl]
            exact foldl_min_le mchild rest _
          exact le_trans (min_le_right β _)
            (le_trans (le_trans h2 (min_le_right accm _)) hmv)
      · have hab2 : α < min β (child m β) := not_le.mp hbr
        have hav : α < child m β := lt_of_lt_of_le hab2 (min_le_right β _)
        have hvm : child m β ≤ mchild m := hv.2 hav
        have hloop : abMinLoop child α (m :: rest) β acc =
            abMinLoop child α rest (min β (child m β)) (min acc (child m β)) := by
          simp [abMinLoop, hbr]
        have hrec := ih (min β (child m β)) (min acc (child m β))
          (min accm (mchild m)) hab2 (min_le_min hacc (le_refl _))
          (min_le_min haccm hvm)
        have hfold : (m :: rest).foldl (fun x m => min x (mchild m)) accm =
            rest.foldl (fun x m => min x (mchild m)) (min accm (mchild m)) := rfl
        rw [hloop, hfold]
        refine ⟨hrec.1, le_trans ?_ hrec.2⟩
        by_cases hbv : β ≤ child m β
        · rw [min_eq_left hbv]
        · have hvb : child m β < β := not_le.mp hbv
          have h1 : rest.foldl (fun x m => min x (mchild m)) (min accm (mchild m)) ≤
              child m β :=
            le_trans (le_trans (foldl_min_le mchild rest _) (min_le_right accm _))
              (hv.1 hvb)
          rw [min_assoc, min_eq_right h1]

/-- Knuth–Moore style fail-soft correctness of the pruned search `abVal`
with respect to the unpruned `mmVal`, for every window with `α < β`:
a result below beta upper-bounds the true minimax value, and a result above
alpha lower-bounds it (so a result strictly inside the window equals it). -/
theorem abVal_vs_mmVal {Pos : Type} (R : Rules Pos) (e : Pos → Int) :
    ∀ (d : Nat) (g : Pos) (α β : Score) (maxi : Bool) (ply : Nat), α < β →
      ((abVal R e d g α β maxi ply < β →
          mmVal R e d g maxi ply ≤ abVal R e d g α β maxi ply)
        ∧ (α < abVal R e d g α β maxi ply →
          abVal R e d g α β maxi ply ≤ mmVal R e d g maxi ply)) := by
  intro d
  induction d with
  | zero =>
      intro g α β maxi ply hab
      have h : abVal R e 0 g α β maxi ply = mmVal R e 0 g maxi ply := by
        simp [abVal, mmVal]
      rw [h]
      exact ⟨fun _ => le_refl _, fun _ => le_refl _⟩
  | succ d ih =>
      intro g α β maxi ply hab
      cases hc : R.isCheckmate g with
      | true =>
          have h : abVal R e (d + 1) g α β maxi ply = mmVal R e (d + 1) g maxi ply := by
            simp [abVal, mmVal, hc]
          rw [h]
          exact ⟨fun _ => le_refl _, fun _ => le_refl _⟩
      | false =>
          cases hgo : R.isGameOver g with
          | true =>
              have h : abVal R e (d + 1) g α β maxi ply = mmVal R e (d + 1) g maxi ply := by
                simp [abVal, mmVal, hc, hgo]
              rw [h]
              exact ⟨fun _ => le_refl _, fun _ => le_refl _⟩
          | false =>
              cases maxi with
              | true =>
                  have hA : abVal R e (d + 1) g α β true ply =
                      abMaxLoop (fun m a => abVal R e d (R.applyMove g m) a β false (ply + 1))
                        β (R.moves g) α ⊥ := by
                    simp [abVal, hc, hgo]
                  have hM : mmVal R e (d + 1) g true ply =
                      (R.moves g).foldl
                        (fun acc m => max acc (mmVal R e d (R.applyMove g m) false (ply + 1))) ⊥ := by
                    simp [mmVal, hc, hgo]
                  have hb := abMaxLoop_bounds
                    (fun m a => abVal R e d (R.applyMove g m) a β false (ply + 1))
                    (fun m => mmVal R e d (R.applyMove g m) false (ply + 1)) β
                    (fun m a ha => ih (R.applyMove g m) a β false (ply + 1) ha)
                    (R.moves g) α ⊥ ⊥ hab bot_le (le_refl _)
                  rw [hA, hM]
                  refine ⟨hb.1, fun haA => ?_⟩
                  rcases max_choice α
                    ((R.moves g).foldl
                      (fun x m => max x (mmVal R e d (R.applyMove g m) false (ply + 1))) ⊥)
                    with h | h
                  · rw [h] at hb
                    exact absurd haA (not_lt.mpr hb.2)
                  · rw [h] at hb
                    exact hb.2
              | false =>
                  have hA : abVal R e (d + 1) g α β false ply =
                      abMinLoop (fun m b => abVal R e d (R.applyMove g m) α b true (ply + 1))
                        α (R.moves g) β ⊤ := by
                    simp [abVal, hc, hgo]
                  have hM : mmVal R e (d + 1) g false ply =
                      (R.moves g).foldl
                        (fun acc m => min acc (mmVal R e d (R.applyMove g m) true (ply + 1))) ⊤ := by
                    simp [mmVal, hc, hgo]
                  have hb := abMinLoop_bounds
                    (fun m b => abVal R e d (R.applyMove g m) α b true (ply + 1))
                    (fun m => mmVal R e d (R.applyMove g m) true (ply + 1)) α
                    (fun m b hbb => ih (R.applyMove g m) α b true (ply + 1) hbb)
                    (R.moves g) β ⊤ ⊤ hab le_top (le_refl _)
                  rw [hA, hM]
                  refine ⟨fun hAβ => ?_, hb.1⟩
                  rcases min_choice β
                    ((R.moves g).foldl
                      (fun x m => min x (mmVal R e d (R.applyMove g m) true (ply + 1))) ⊤)
                    with h | h
                  · rw [h] at hb
                    exact absurd hAβ (not_lt.mpr hb.2)
                  · rw [h] at hb
                    exact hb.2

theorem mateScore_bounds (maxi : Bool) (ply : Nat) :
    (⊥ : Score) < mateScore maxi ply ∧ mateScore maxi ply < ⊤ := by
  cases maxi <;> simp [mateScore] <;> exact ⟨bot_lt_finS _, finS_lt_top _⟩

theorem abMaxLoop_lt_top (child : VMove → Score → Score) (β : Score)
    (hc : ∀ m a, child m a < ⊤) :
    ∀ (ms : List VMove) (α acc : Score), acc < ⊤ →
      abMaxLoop child β ms α acc < ⊤ := by
  intro ms
  induction ms with
  | nil => intro α acc h; simpa [abMaxLoop] using h
  | cons m rest ih =>
      intro α acc h
      by_cases hbr : β ≤ max α (child m α)
      · simpa [abMaxLoop, hbr] using max_lt h (hc m α)
      · simpa [abMaxLoop, hbr] using ih (max α (child m α)) (max acc (child m α))
          (max_lt h (hc m α))

theorem bot_lt_abMaxLoop (child : VMove → Score → Score) (β : Score)
    (hc : ∀ m a, (⊥ : Score) < child m a) :
    ∀ (ms : List VMove) (α acc : Score), ((⊥ : Score) < acc ∨ ms ≠ []) →
      (⊥ : Score) < abMaxLoop child β ms α acc := by
  intro ms
  induction ms with
  | nil =>
      intro α acc h
      rcases h with h | h
      · simpa [abMaxLoop] using h
      · exact absurd rfl h
  | cons m rest ih =>
      intro α acc _
      by_cases hbr : β ≤ max α (child m α)
      · simpa [abMaxLoop, hbr] using lt_of_lt_of_le (hc m α) (le_max_right acc _)
      · simpa [abMaxLoop, hbr] using ih (max α (child m α)) (max acc (child m α))
          (Or.inl (lt_of_lt_of_le (hc m α) (le_max_right acc _)))

theorem abMinLoop_lt_top (child : VMove → Score → Score) (α : Score)
    (hc : ∀ m b, child m b < ⊤) :
    ∀ (ms : List VMove) (β acc : Score), (acc < ⊤ ∨ ms ≠ []) →
      abMinLoop child α ms β acc < ⊤ := by
  intro ms
  induction ms with
  | nil =>
      intro β acc h
      rcases h with h | h
      · simpa [abMinLoop] using h
      · exact absurd rfl h
  | cons m rest ih =>
      intro β acc _
      by_cases hbr : min β (child m β) ≤ α
      · simpa [abMinLoop, hbr] using lt_of_le_of_lt (min_le_right acc _) (hc m β)
      · simpa [abMinLoop, hbr] using ih (min β (child m β)) (min acc (child m β))
          (Or.inl (lt_of_le_of_lt (min_le_right acc _) (hc m β)))

theorem bot_lt_abMinLoop (child : VMove → Score → Score) (α : Score)
    (hc : ∀ m b, (⊥ : Score) < child m b) :
    ∀ (ms : List VMove) (β acc : Score), (⊥ : Score) < acc →
      (⊥ : Score) < abMinLoop child α ms β acc := by
  intro ms
  induction ms with
  | nil => intro β acc h; simpa [abMinLoop] using h
  | cons m rest ih =>
      intro β acc h
      by_cases hbr : min β (child m β) ≤ α
      · simpa [abMinLoop, hbr] using lt_min h (hc m β)
      · simpa [abMinLoop, hbr] using ih (min β (child m β)) (min acc (child m β))
          (lt_min h (hc m β))

/-- Under a proper rules provider (and hence on real chess positions) every
value the pruned search returns is finite: strictly between the
`-Infinity` and `Infinity` sentinels. -/
theorem abVal_bounds {Pos : Type} (R : Rules Pos) (e : Pos → Int)
    (hP : Proper R) :
    ∀ (d : Nat) (g : Pos) (α β : Score) (maxi : Bool) (ply : Nat),
      (⊥ : Score) < abVal R e d g α β maxi ply
        ∧ abVal R e d g α β maxi ply < ⊤ := by
  intro d
  induction d with
  | zero =>
      intro g α β maxi ply
      cases hc : R.isCheckmate g with
      | true => simpa [abVal, hc] using mateScore_bounds maxi ply
      | false => simpa [abVal, hc] using ⟨bot_lt_finS (e g), finS_lt_top (e g)⟩
  | succ d ih =>
      intro g α β maxi ply
      cases hc : R.isCheckmate g with
      | true => simpa [abVal, hc] using mateScore_bounds maxi ply
      | false =>
          cases hgo : R.isGameOver g with
          | true => simpa [abVal, hc, hgo] using ⟨bot_lt_finS (e g), finS_lt_top (e g)⟩
          | false =>
              have hne : R.moves g ≠ [] := by
                intro h
                rw [hP g h] at hgo
                exact Bool.noConfusion hgo
              cases maxi with
              | true =>
                  constructor
                  · simpa [abVal, hc, hgo] using
                      bot_lt_abMaxLoop
                        (fun m a => abVal R e d (R.applyMove g m) a β false (ply + 1)) β
                        (fun m a => (ih (R.applyMove g m) a β false (ply + 1)).1)
                        (R.moves g) α ⊥ (Or.inr hne)
                  · simpa [abVal, hc, hgo] using
                      abMaxLoop_lt_top
                        (fun m a => abVal R e d (R.applyMove g m) a β false (ply + 1)) β
                        (fun m a => (ih (R.applyMove g m) a β false (ply + 1)).2)
                        (R.moves g) α ⊥ bot_lt_top_score
              | false =>
                  constructor
                  · simpa [abVal, hc, hgo] using
                      bot_lt_abMinLoop
                        (fun m b => abVal R e d (R.applyMove g m) α b true (ply + 1)) α
                        (fun m b => (ih (R.applyMove g m) α b true (ply + 1)).1)
                        (R.moves g) β ⊤ bot_lt_top_score
                  · simpa [abVal, hc, hgo] using
                      abMinLoop_lt_top
                        (fun m b => abVal R e d (R.applyMove g m) α b true (ply + 1)) α
                        (fun m b => (ih (R.applyMove g m) α b true (ply + 1)).2)
                        (R.moves g) β ⊤ (Or.inr hne)

/-- The root loop chooses the same move over pruned child values as over
unpruned ones: with `beta = Infinity` fixed at the root and
`bestValue = alpha` maintained, the fail-soft window facts force
`max α v = max α m` at every step, so the strict-improvement update and the
chosen move coincide. -/
theorem rootLoopF_eq (childAB : VMove → Score → Score)
    (mchild : VMove → Score)
    (Hc : ∀ m a, a < ⊤ →
      ((childAB m a < ⊤ → mchild m ≤ childAB m a)
        ∧ (a < childAB m a → childAB m a ≤ mchild m)))
    (Hfin : ∀ m a, childAB m a < ⊤) :
    ∀ (ms : List VMove) (α : Score) (best : Option BotMove), α < ⊤ →
      rootLoopF childAB ms α α best = rootLoopF (fun m _ => mchild m) ms α α best := by
  intro ms
  induction ms with
  | nil => intro α best _; rfl
  | cons m rest ih =>
      intro α best ha
      have hv := Hc m α ha
      by_cases hlt : α < childAB m α
      · have heq : mchild m = childAB m α :=
          le_antisymm (hv.1 (Hfin m α)) (hv.2 hlt)
        have h1 : rootLoopF childAB (m :: rest) α α best =
            rootLoopF childAB rest (childAB m α) (childAB m α) (some (toBot m)) := by
          simp [rootLoopF, hlt, max_eq_right (le_of_lt hlt)]
        have h2 : rootLoopF (fun m2 _ => mchild m2) (m :: rest) α α best =
            rootLoopF (fun m2 _ => mchild m2) rest (childAB m α) (childAB m α)
              (some (toBot m)) := by
          simp [rootLoopF, heq, hlt, max_eq_right (le_of_lt hlt)]
        rw [h1, h2]
        exact ih (childAB m α) (some (toBot m)) (Hfin m α)
      · have hma : mchild m ≤ α := le_trans (hv.1 (Hfin m α)) (not_lt.mp hlt)
        have h1 : rootLoopF childAB (m :: rest) α α best =
            rootLoopF childAB rest α α best := by
          simp [rootLoopF, hlt, max_eq_left (not_lt.mp hlt)]
        have h2 : rootLoopF (fun m2 _ => mchild m2) (m :: rest) α α best =
            rootLoopF (fun m2 _ => mchild m2) rest α α best := by
          simp [rootLoopF, not_lt.mpr hma, max_eq_left hma]
        rw [h1, h2]
        exact ih α best ha

/-- C2: with the jitter disabled, for every proper rules provider, every
evaluator, every position and every depth, the move chosen by the
alpha-beta-pruned `getBestMove` equals the move chosen by the exhaustive
unpruned minimax search of the same depth over the same tree, with ties
broken identically by move-generation order and strict improvement. -/
theorem getBestMove_ab_eq_unpruned {Pos : Type} (R : Rules Pos)
    (e : Pos → Int) (hP : Proper R) (g : Pos) (depth : Nat) :
    getBestMove R e g depth = getBestMoveMM R e g depth := by
  unfold getBestMove getBestMoveMM
  by_cases hms : R.moves g = []
  · simp [hms]
  · simp only [hms, if_false]
    cases hfind : (R.moves g).find? (fun m => R.isCheckmate (R.applyMove g m)) with
    | some m => rfl
    | none =>
        exact rootLoopF_eq
          (fun m a => abVal R e (depth - 1) (R.applyMove g m) a ⊤ false 1)
          (fun m => mmVal R e (depth - 1) (R.applyMove g m) false 1)
          (fun m a ha => abVal_vs_mmVal R e (depth - 1) (R.applyMove g m) a ⊤ false 1 ha)
          (fun m a => (abVal_bounds R e hP (depth - 1) (R.applyMove g m) a ⊤ false 1).2)
          (R.moves g) ⊥ none bot_lt_top_score

theorem rootLoopF_some (child : VMove → Score → Score) :
    ∀ (ms : List VMove) (bv α : Score) (b : BotMove),
      ∃ b2, rootLoopF child ms bv α (some b) = some b2
        ∧ (b2 = b ∨ ∃ m ∈ ms, b2 = toBot m) := by
  intro ms
  induction ms with
  | nil => intro bv α b; exact ⟨b, rfl, Or.inl rfl⟩
  | cons m rest ih =>
      intro bv α b
      by_cases hlt : bv < child m α
      · obtain ⟨b2, h1, h2⟩ := ih (child m α) (max α (child m α)) (toBot m)
        refine ⟨b2, ?_, ?_⟩
        · simpa [rootLoopF, hlt] using h1
        · rcases h2 with h | ⟨m2, hm2, hb⟩
          · exact Or.inr ⟨m, List.mem_cons_self m rest, h⟩
          · exact Or.inr ⟨m2, List.mem_cons_of_mem m hm2, hb⟩
      · obtain ⟨b2, h1, h2⟩ := ih bv (max α (child m α)) b
        refine ⟨b2, ?_, ?_⟩
        · simpa [rootLoopF, hlt] using h1
        · rcases h2 with h | ⟨m2, hm2, hb⟩
          · exact Or.inl h
          · exact Or.inr ⟨m2, List.mem_cons_of_mem m hm2, hb⟩

theorem rootLoopF_nonempty (child : VMove → Score → Score)
    (hcb : ∀ m a, (⊥ : Score) < child m a) (m : VMove) (rest : List VMove)
    (α : Score) :
    ∃ b2, rootLoopF child (m :: rest) ⊥ α none = some b2
      ∧ ∃ mv ∈ m :: rest, b2 = toBot mv := by
  have hlt : (⊥ : Score) < child m α := hcb m α
  obtain ⟨b2, h1, h2⟩ :=
    rootLoopF_some child rest (child m α) (max α (child m α)) (toBot m)
  refine ⟨b2, ?_, ?_⟩
  · simpa [rootLoopF, hlt] using h1
  · rcases h2 with h | ⟨m2, hm2, hb⟩
    · exact ⟨m, List.mem_cons_self m rest, h⟩
    · exact ⟨m2, List.mem_cons_of_mem m hm2, hb⟩

/-- C1: under a proper rules provider, `getBestMove` returns none exactly
when the position has no legal moves, and any returned move is a member of
the legal-move list (same from-square, to-square and promotion, via
`toBot`). -/
theorem getBestMove_legal {Pos : Type} (R : Rules Pos) (e : Pos → Int)
    (hP : Proper R) (g : Pos) (depth : Nat) :
    (getBestMove R e g depth = none ↔ R.moves g = [])
    ∧ ∀ bm, getBestMove R e g depth = some bm →
        ∃ mv ∈ R.moves g, bm = toBot mv := by
  by_cases hms : R.moves g = []
  · constructor
    · simp [getBestMove, hms]
    · intro bm h
      rw [getBestMove] at h
      simp [hms] at h
  · cases hfind : (R.moves g).find? (fun m => R.isCheckmate (R.applyMove g m)) with
    | some m =>
        have hres : getBestMove R e g depth = some (toBot m) := by
          simp [getBestMove, hms, hfind]
        constructor
        · simp [hres, hms]
        · intro bm h
          rw [hres] at h
          exact ⟨m, List.mem_of_find?_eq_some hfind, (Option.some.inj h).symm⟩
    | none =>
        obtain ⟨m, rest, hcons⟩ := List.exists_cons_of_ne_nil hms
        obtain ⟨b2, h1, m2, hm2, hb⟩ := rootLoopF_nonempty
          (fun m3 a => abVal R e (depth - 1) (R.applyMove g m3) a ⊤ false 1)
          (fun m3 a => (abVal_bounds R e hP (depth - 1) (R.applyMove g m3) a ⊤ false 1).1)
          m rest ⊥
        have hres : getBestMove R e g depth = some b2 := by
          rw [getBestMove, if_neg hms, hfind, hcons]
          exact h1
        constructor
        · simp [hres, hms]
        · intro bm h
          rw [hres] at h
          refine ⟨m2, ?_, ?_⟩
          · rw [hcons]
            exact hm2
          · rw [← Option.some.inj h]
            exact hb

/-- C1 witness: on the demo instance (two legal moves at the root) the
search produces a move. -/
theorem getBestMove_legal_witness :
    (getBestMove demoR demoE 0 3).isSome = true := by
  have h := getBestMove_legal demoR demoE demoR_proper 0 3
  cases hres : getBestMove demoR demoE 0 3 with
  | none =>
      have h2 := h.1.mp hres
      simp [demoR] at h2
  | some bm => rfl

/-- C2 witness: pruned and unpruned search agree on the demo instance. -/
theorem getBestMove_ab_eq_unpruned_witness :
    getBestMove demoR demoE 0 3 = getBestMoveMM demoR demoE 0 3 :=
  getBestMove_ab_eq_unpruned demoR demoE demoR_proper 0 3

/-- C3: if the first legal move (in generation order) whose application
yields checkmate exists — i.e. `find?` returns it — then `getBestMove`
returns exactly that move, for every requested depth and every evaluator:
the short-circuit runs before any recursive search and ignores both. -/
theorem getBestMove_mate_shortcircuit {Pos : Type} (R : Rules Pos)
    (e : Pos → Int) (g : Pos) (mv : VMove)
    (hfind : (R.moves g).find? (fun m => R.isCheckmate (R.applyMove g m)) = some mv) :
    ∀ depth : Nat, getBestMove R e g depth = some (toBot mv) := by
  intro depth
  have hne : R.moves g ≠ [] := by
    intro h
    rw [h] at hfind
    simp at hfind
  simp [getBestMove, hne, hfind]

/-- C3 witness: on the demo mate instance the first mating move is returned
at depth 5. -/
theorem getBestMove_mate_shortcircuit_witness :
    getBestMove demoM demoE 0 5 =
      some { fromSq := "d8", toSq := "h4", promotion := none } := by
  have h := getBestMove_mate_shortcircuit demoM demoE 0
    ⟨"d8", "h4", none⟩ (by decide) 5
  exact h

/-- C4: at every checkmate node the recursive search returns the
ply-adjusted mate score `-(100000 - ply)` when maximizing and
`+(100000 - ply)` when minimizing, and for plies `p1 < p2` the shallower
magnitude `100000 - p1` strictly exceeds the deeper `100000 - p2`, so the
engine prefers the fastest mate. -/
theorem minimax_mate_score :
    (∀ (Pos : Type) (R : Rules Pos) (e : Pos → Int) (d : Nat) (g : Pos)
       (α β : Score) (maxi : Bool) (ply : Nat),
       R.isCheckmate g = true →
       abVal R e d g α β maxi ply =
         (if maxi then finS (-(100000 - (ply : Int)))
          else finS (100000 - (ply : Int))))
    ∧ ∀ p1 p2 : Nat, p1 < p2 → 100000 - (p2 : Int) < 100000 - (p1 : Int) := by
  constructor
  · intro Pos R e d g α β maxi ply hc
    cases d <;> simp [abVal, hc, mateScore]
  · intro p1 p2 h
    omega

/-- C4 witness: at the checkmate demo position, ply 2, the maximizing node
scores -(100000 - 2) = -99998. -/
theorem minimax_mate_score_witness :
    abVal demoM demoE 3 1 ⊥ ⊤ true 2 = finS (-99998) := by
  have h := minimax_mate_score.1 Nat demoM demoE 3 1 ⊥ ⊤ true 2 (by decide)
  rw [h]
  norm_num

/-- C10: the search never lets the evaluator's checkmate branch matter:
any two evaluators that agree on non-checkmate positions produce identical
`minimax` values at every node and window and an identical chosen move —
the search resolves checkmate itself (with the ply-adjusted mate score)
before the evaluator is ever consulted. -/
theorem search_ignores_evaluator_at_checkmate :
    ∀ (Pos : Type) (R : Rules Pos) (e1 e2 : Pos → Int),
      (∀ g, R.isCheckmate g = false → e1 g = e2 g) →
      (∀ (d : Nat) (g : Pos) (α β : Score) (maxi : Bool) (ply : Nat),
          abVal R e1 d g α β maxi ply = abVal R e2 d g α β maxi ply)
      ∧ ∀ (g : Pos) (depth : Nat),
          getBestMove R e1 g depth = getBestMove R e2 g depth := by
  intro Pos R e1 e2 hagree
  have hab : ∀ (d : Nat) (g : Pos) (α β : Score) (maxi : Bool) (ply : Nat),
      abVal R e1 d g α β maxi ply = abVal R e2 d g α β maxi ply := by
    intro d
    induction d with
    | zero =>
        intro g α β maxi ply
        cases hc : R.isCheckmate g with
        | true => simp [abVal, hc]
        | false => simp [abVal, hc, hagree g hc]
    | succ d ih =>
        intro g α β maxi ply
        cases hc : R.isCheckmate g with
        | true => simp [abVal, hc]
        | false =>
            cases hgo : R.isGameOver g with
            | true => simp [abVal, hc, hgo, hagree g hc]
            | false =>
                cases maxi with
                | true =>
                    have hch : (fun m a => abVal R e1 d (R.applyMove g m) a β false (ply + 1))
                        = fun m a => abVal R e2 d (R.applyMove g m) a β false (ply + 1) := by
                      funext m a
                      exact ih (R.applyMove g m) a β false (ply + 1)
                    simp [abVal, hc, hgo]
                    rw [hch]
                | false =>
                    have hch : (fun m b => abVal R e1 d (R.applyMove g m) α b true (ply + 1))
                        = fun m b => abVal R e2 d (R.applyMove g m) α b true (ply + 1) := by
                      funext m b
                      exact ih (R.applyMove g m) α b true (ply + 1)
                    simp [abVal, hc, hgo]
                    rw [hch]
  refine ⟨hab, ?_⟩
  intro g depth
  unfold getBestMove
  have h : (fun m a => abVal R e1 (depth - 1) (R.applyMove g m) a ⊤ false 1)
      = fun m a => abVal R e2 (depth - 1) (R.applyMove g m) a ⊤ false 1 := by
    funext m a
    exact hab (depth - 1) (R.applyMove g m) a ⊤ false 1
  rw [h]

/-- C10 witness: on the demo mate instance, replacing the evaluator's value
at checkmate positions does not change the chosen move. -/
theorem search_ignores_evaluator_witness :
    getBestMove demoM demoE 0 3 = getBestMove demoM demoE2 0 3 :=
  (search_ignores_evaluator_at_checkmate Nat demoM demoE demoE2
    (fun g hg => by simp [demoE, demoE2, hg])).2 0 3
